import Mathlib

/-!
Verification of the Extension Resolution Engine of rodrigos-cli.

The definitions below are a shallow embedding of `src/core/extension-loader.ts`
(class `ExtensionLoader`) together with the data model of `src/types/index.ts`.
The filesystem is modelled as a pure tree of named entries; each file carries
the outcome that the sidecar parser (yaml.load / JSON.parse) would produce on
its content.  JavaScript `Map` iteration order, the stability of `Array.sort`
(ES2019), JS truthiness checks, and `String.replace`'s first-occurrence
semantics are modelled explicitly where the source relies on them.
-/

namespace RC

/-- JavaScript values as they occur in option records (`Record<string, any>`).
`undef` models `undefined`; floats are not needed by the engine's claims. -/
inductive JSValue where
  | undef : JSValue
  | vNull : JSValue
  | vBool : Bool → JSValue
  | vNum : Int → JSValue
  | vStr : String → JSValue
deriving DecidableEq, Repr

/-- `String(value)` coercion for the values above. -/
def jsString : JSValue → String
  | JSValue.undef => "undefined"
  | JSValue.vNull => "null"
  | JSValue.vBool b => if b then "true" else "false"
  | JSValue.vNum n => toString n
  | JSValue.vStr s => s

/-- One option declaration of a sidecar config (`ExtensionOption`). -/
structure ExtensionOption where
  name : String
  short : Option String := none
  type : String := "string"
  description : Option String := none
  suggestions : Option (List String) := none
  required : Option Bool := none
  default : Option JSValue := none
deriving DecidableEq, Repr

/-- A parsed sidecar metadata document (`ExtensionConfig`).  The loader also
reads an `aliases` field from these documents. -/
structure ExtensionConfig where
  description : Option String := none
  runner : Option String := none
  passContext : Option Bool := none
  options : Option (List ExtensionOption) := none
  suggestionsCommand : Option String := none
  aliases : Option (List String) := none
deriving DecidableEq, Repr

/-- A resolved command entry (`Extension`).  `command` is the space-joined
command path; `scriptType` is one of the string literals of the TS union
(virtual directory entries are tagged "js" by the loader). -/
structure Extension where
  command : String
  scriptPath : String
  config : Option ExtensionConfig
  scriptType : String
deriving DecidableEq, Repr

/-- An extension paired with the root it came from (`ExtensionSource`). -/
structure ExtensionSource where
  extension : Extension
  sourceDir : String
  priority : Nat
deriving DecidableEq, Repr

/-- A losing extension inside a conflict record, carrying its root
(`Extension & \x7b sourceDir: string \x7d`). -/
structure ConflictingExtension where
  extension : Extension
  sourceDir : String
deriving DecidableEq, Repr

/-- A recorded collision (`ExtensionConflict`). -/
structure ExtensionConflict where
  command : String
  primaryExtension : Extension
  conflictingExtensions : List ConflictingExtension
deriving DecidableEq, Repr

/-! ### mergeExtensionsWithConflicts -/

/-- One step of `commandMap.get(command).push(source)`: a JS `Map` keeps keys
in insertion order, so a new key is appended at the end and an existing key is
updated in place. -/
def groupInsert : List (String × List ExtensionSource) → String → ExtensionSource →
    List (String × List ExtensionSource)
  | [], c, s => [(c, [s])]
  | (c', g) :: rest, c, s =>
    if c' = c then (c', g ++ [s]) :: rest else (c', g) :: groupInsert rest c s

/-- The `commandMap` built by the first loop of `mergeExtensionsWithConflicts`. -/
def groupByCommand (sources : List ExtensionSource) : List (String × List ExtensionSource) :=
  sources.foldl (fun m s => groupInsert m s.extension.command s) []

/-- Stable insertion used to model `commandSources.sort((a, b) => a.priority - b.priority)`;
`Array.prototype.sort` is stable, so equal priorities keep their scan order. -/
def insertByPriority (s : ExtensionSource) : List ExtensionSource → List ExtensionSource
  | [] => [s]
  | t :: ts => if s.priority ≤ t.priority then s :: t :: ts else t :: insertByPriority s ts

/-- Stable sort by ascending priority. -/
def sortByPriority (l : List ExtensionSource) : List ExtensionSource :=
  l.foldr insertByPriority []

/-- The winner a command group contributes to `mergedExtensions`
(empty group contributes nothing: `if (!primarySource) continue`). -/
def mergeGroupEntry : String × List ExtensionSource → List Extension
  | (_, g) =>
    match sortByPriority g with
    | [] => []
    | p :: _ => [p.extension]

/-- The conflict record a command group contributes (only when the group has
more than one member). -/
def mergeGroupConflict : String × List ExtensionSource → List ExtensionConflict
  | (c, g) =>
    match sortByPriority g with
    | [] => []
    | _ :: [] => []
    | p :: r => [⟨c, p.extension, r.map (fun s => ⟨s.extension, s.sourceDir⟩)⟩]

/-- `mergeExtensionsWithConflicts`: group by command, pick the
highest-priority source of each group, record the rest as a conflict. -/
def mergeExtensionsWithConflicts (sources : List ExtensionSource) :
    List Extension × List ExtensionConflict :=
  let gs := groupByCommand sources
  (gs.flatMap mergeGroupEntry, gs.flatMap mergeGroupConflict)

/-- First-match lookup in the grouped command map. -/
def findGroup (c : String) : List (String × List ExtensionSource) → Option (List ExtensionSource)
  | [] => none
  | (c', g) :: rest => if c' = c then some g else findGroup c rest

/-- Keys of the grouped command map, in insertion order. -/
def groupKeys (m : List (String × List ExtensionSource)) : List String :=
  m.map Prod.fst

/-- How a group for one command grows while folding further sources in. -/
def combineGroup : Option (List ExtensionSource) → List ExtensionSource →
    Option (List ExtensionSource)
  | some g, f => some (g ++ f)
  | none, [] => none
  | none, f => some f

/-! ### Path and string helpers (Node `path` module semantics) -/

/-- Does `pat` start the list?  (Substring search step for `String.replace`.) -/
def leadsWith : List Char → List Char → Bool
  | [], _ => true
  | _ :: _, [] => false
  | p :: ps, c :: cs => p = c && leadsWith ps cs

/-- JS `String.replace` with a string pattern: replace the first occurrence
only; an empty pattern matches at the start. -/
def replaceFirstL (pat rep : List Char) : List Char → List Char
  | [] => if leadsWith pat [] then rep else []
  | c :: rest =>
    if leadsWith pat (c :: rest) then rep ++ (c :: rest).drop pat.length
    else c :: replaceFirstL pat rep rest

/-- JS `String.replace(pat, rep)` (string pattern, first occurrence). -/
def replaceFirstS (s pat rep : String) : String :=
  String.mk (replaceFirstL pat.toList rep.toList s.toList)

/-- The basename portion of a path: everything after the last `/`. -/
def basenameL (l : List Char) : List Char :=
  (l.reverse.takeWhile (fun c => c ≠ '/')).reverse

/-- Node `path.extname` on a basename char list: the part from the last dot,
unless that dot starts the basename. -/
def extnameL (b : List Char) : List Char :=
  match b.reverse.findIdx? (fun c => c = '.') with
  | none => []
  | some i => if i + 1 = b.length then [] else '.' :: (b.reverse.take i).reverse

/-- Node `path.extname`. -/
def extname (p : String) : String :=
  String.mk (extnameL (basenameL p.toList))

/-- `getCommandName`: `basename(filename, extname(filename))`. -/
def getCommandName (filename : String) : String :=
  let b := basenameL filename.toList
  String.mk (b.take (b.length - (extnameL b).length))

/-- Split a char list on a delimiter (JS `String.split` semantics: keeps
empty pieces). -/
def splitChars (delim : Char) : List Char → List Char → List String
  | [], acc => [String.mk acc.reverse]
  | c :: rest, acc =>
    if c = delim then String.mk acc.reverse :: splitChars delim rest []
    else splitChars delim rest (c :: acc)

/-- `command.split(" ")`. -/
def splitOnSpace (s : String) : List String :=
  splitChars ' ' s.toList []

/-- Path segments: split on `/` and drop empty segments (as the OS does when
resolving `//` or a leading `/`). -/
def splitPath (p : String) : List String :=
  (splitChars '/' p.toList []).filter (fun s => s ≠ "")

/-- `isExecutableFile`: recognized executable extensions. -/
def isExecutableFile (filename : String) : Bool :=
  [".js", ".ts", ".cjs", ".sh", ".py", ".rb", ".php"].contains (extname filename)

/-- `getScriptType`: map a script path's extension to the script-type literal
(the TS `default` branch also yields "js"). -/
def getScriptType (scriptPath : String) : String :=
  let ext := extname scriptPath
  if ext = ".js" then "js"
  else if ext = ".ts" then "ts"
  else if ext = ".cjs" then "js"
  else if ext = ".sh" then "sh"
  else if ext = ".py" then "py"
  else if ext = ".rb" then "rb"
  else if ext = ".php" then "php"
  else "js"

/-- `baseCommand ? baseCommand + " " + item : item` (empty string is falsy). -/
def joinCmd (base item : String) : String :=
  if base = "" then item else base ++ " " ++ item

/-! ### Filesystem model

A pure tree of named entries.  Each file records the outcome the sidecar
parser would produce on its content: `Except.ok (some cfg)` for a document
parsing to the object `cfg`, `Except.ok none` for content parsing to
`null`/`undefined`, and `Except.error ()` for content on which the parser
throws.  Script files are never parsed, so their field is irrelevant. -/

mutual
inductive FSEntry where
  | file : String → Except Unit (Option ExtensionConfig) → FSEntry
  | dir : String → List FSEntry → FSEntry
end

/-- The name of an entry. -/
def FSEntry.name : FSEntry → String
  | FSEntry.file n _ => n
  | FSEntry.dir n _ => n

/-- A filesystem: the children of the root directory. -/
def FS := List FSEntry

/-- Find a child by name (`readdir` names are unique on a real filesystem;
resolution takes the first match). -/
def findEntry (children : List FSEntry) (n : String) : Option FSEntry :=
  children.find? (fun e => e.name == n)

/-- Resolve a segment list against a directory's children. -/
def lookupSegs : List FSEntry → List String → Option FSEntry
  | children, [] => some (FSEntry.dir "" children)
  | children, [n] => findEntry children n
  | children, n :: rest =>
    match findEntry children n with
    | some (FSEntry.dir _ cs) => lookupSegs cs rest
    | _ => none

/-- `statSync` as a pure lookup: `none` models the ENOENT throw. -/
def stat (fs : FS) (p : String) : Option FSEntry :=
  lookupSegs fs (splitPath p)

instance : DecidableEq (Except Unit (Option ExtensionConfig))
  | Except.ok x, Except.ok y =>
    if h : x = y then isTrue (by rw [h]) else isFalse (fun hc => h (Except.ok.inj hc))
  | Except.error x, Except.error y =>
    if h : x = y then isTrue (by rw [h]) else isFalse (fun hc => h (Except.error.inj hc))
  | Except.ok _, Except.error _ => isFalse (fun hc => Except.noConfusion hc)
  | Except.error _, Except.ok _ => isFalse (fun hc => Except.noConfusion hc)

/-- Whether `statSync(p)` would find a regular file. -/
def statIsFile (fs : FS) (p : String) : Bool :=
  match stat fs p with
  | some (FSEntry.file _ _) => true
  | _ => false

/-- The two candidate sidecar paths for a script file: the script path with
its extension replaced (JS `String.replace`: first occurrence) by `.yaml`
then `.json`. -/
def fileConfigCandidates (p : String) : List String :=
  [replaceFirstS p (extname p) ".yaml", replaceFirstS p (extname p) ".json"]

/-- The two candidate sidecar paths for a directory: `<dir>/<dirname>.yaml`
then `<dir>/<dirname>.json`. -/
def dirConfigCandidates (p : String) : List String :=
  [p ++ "/" ++ String.mk (basenameL p.toList) ++ ".yaml",
   p ++ "/" ++ String.mk (basenameL p.toList) ++ ".json"]

/-- The candidate loop of `loadSidecarConfig`: the first existing candidate is
read and parsed; the loader returns its parse result directly (even when that
is `null`/`undefined`), while a read or parse error is caught and the next
candidate is tried. -/
def tryConfigCandidates (fs : FS) : List String → Option ExtensionConfig
  | [] => none
  | p :: rest =>
    match stat fs p with
    | some (FSEntry.file _ (Except.ok r)) => r
    | some _ => tryConfigCandidates fs rest
    | none => tryConfigCandidates fs rest

/-- `loadSidecarConfig`.  The leading `statSync(path)` throws (`Except.error`)
when the path does not exist; otherwise the candidate list depends on whether
the path is a directory. -/
def loadSidecarConfig (fs : FS) (path : String) : Except Unit (Option ExtensionConfig) :=
  match stat fs path with
  | none => Except.error ()
  | some (FSEntry.dir _ _) => Except.ok (tryConfigCandidates fs (dirConfigCandidates path))
  | some (FSEntry.file _ _) => Except.ok (tryConfigCandidates fs (fileConfigCandidates path))

/-- `createExtension`: its internal try/catch absorbs the sidecar loader's
errors into `null`. -/
def createExtension (fs : FS) (command scriptPath : String) : Option Extension :=
  match loadSidecarConfig fs scriptPath with
  | Except.error _ => none
  | Except.ok cfg => some ⟨command, scriptPath, cfg, getScriptType scriptPath⟩

/-- The `extension.config?.aliases` truthiness check: `undefined`/`null`
skips the loop; any list (even empty) is iterated. -/
def aliasesOf : Option ExtensionConfig → List String
  | some cfg => match cfg.aliases with | some l => l | none => []
  | none => []

/-! ### discoverExtensions

The source recursion is unbounded over directory paths; on a finite
filesystem its depth is bounded by the tree depth, modelled here by `fuel`.
`scanItems` is the per-directory item loop; its surrounding try/catch makes a
thrown `statSync`/`loadSidecarConfig` abandon the rest of the loop and return
what was accumulated so far. -/

/-- The per-directory item loop of `discoverExtensions`.  `recurse` is the
recursive descent into a subdirectory (the engine re-entering itself on the
child path); it is a parameter so that the loop is structurally recursive on
the item list. -/
def scanItems (fs : FS) (recurse : String → String → List Extension) :
    List String → String → String → List Extension
  | [], _, _ => []
  | item :: rest, dir, baseCommand =>
    let itemPath := dir ++ "/" ++ item
    match stat fs itemPath with
    | none => []
    | some (FSEntry.dir _ _) =>
      match loadSidecarConfig fs itemPath with
      | Except.error _ => []
      | Except.ok dirConfig =>
        let subCommand := joinCmd baseCommand item
        let virt : List Extension :=
          match dirConfig with
          | some cfg => [⟨subCommand, itemPath, some cfg, "js"⟩]
          | none => []
        virt ++ recurse itemPath subCommand ++
          scanItems fs recurse rest dir baseCommand
    | some (FSEntry.file _ _) =>
      if isExecutableFile item then
        match createExtension fs (joinCmd baseCommand (getCommandName item)) itemPath with
        | none => scanItems fs recurse rest dir baseCommand
        | some ext =>
          let aliasExts := (aliasesOf ext.config).filterMap
            (fun al => createExtension fs (joinCmd baseCommand al) itemPath)
          ext :: (aliasExts ++ scanItems fs recurse rest dir baseCommand)
      else scanItems fs recurse rest dir baseCommand

/-- `discoverExtensions(dir, baseCommand)`: check existence, read the
directory, and run the item loop. -/
def discoverExtensions (fs : FS) : Nat → String → String → List Extension
  | 0, _, _ => []
  | fuel + 1, dir, baseCommand =>
    match stat fs dir with
    | some (FSEntry.dir _ cs) =>
      scanItems fs (discoverExtensions fs fuel) (cs.map FSEntry.name) dir baseCommand
    | _ => []

/-! ### buildEnvironment -/

/-- Assignment to a JS object field: an existing key is updated in place
(keeping its position in insertion order), a new key is appended. -/
def setVar : List (String × String) → String → String → List (String × String)
  | [], k, v => [(k, v)]
  | kv :: rest, k, v =>
    if kv.1 = k then (k, v) :: rest else kv :: setVar rest k v

/-- First-match lookup of an environment variable. -/
def lookupVar (k : String) : List (String × String) → Option String
  | [] => none
  | kv :: rest => if kv.1 = k then some kv.2 else lookupVar k rest

/-- ASCII uppercase of one character (`String.toUpperCase` on the ASCII
range, which is all the engine relies on). -/
def upChar (c : Char) : Char :=
  if 'a' ≤ c ∧ c ≤ 'z' then Char.ofNat (c.toNat - 32) else c

/-- `key.toUpperCase()`. -/
def toUpperJS (s : String) : String := String.mk (s.toList.map upChar)

/-- One option entry of the `buildEnvironment` loop: skipped when the value
is `undefined` (`value !== undefined`), otherwise `RC_<NAME-uppercased>` is
assigned `String(value)`. -/
def applyOption (env : List (String × String)) (kv : String × JSValue) :
    List (String × String) :=
  match kv.2 with
  | JSValue.undef => env
  | v => setVar env ("RC_" ++ toUpperJS kv.1) (jsString v)

/-- `buildEnvironment`: the three fixed `RC_` variables, then one variable
per defined option entry. -/
def buildEnvironment (extension : Extension) (options : List (String × JSValue)) :
    List (String × String) :=
  let env0 :=
    setVar (setVar (setVar [] "RC_COMMAND" extension.command)
      "RC_SCRIPT_PATH" extension.scriptPath) "RC_SCRIPT_TYPE" extension.scriptType
  options.foldl applyOption env0

/-! ### executeExtension -/

/-- The execution context serialized to the child (`ExecutionContext`).
`args` is `process.argv.slice(2)`: every CLI token after the program name. -/
structure ExecutionContext where
  command : String
  options : List (String × JSValue)
  args : List String
  env : List (String × String)
deriving DecidableEq, Repr

/-- JSON escaping for the characters `JSON.stringify` must escape in the
strings this engine produces. -/
def jsonEscapeChar (c : Char) : String :=
  if c = '"' then "\\\""
  else if c = '\\' then "\\\\"
  else if c = '\n' then "\\n"
  else if c = '\t' then "\\t"
  else if c = '\r' then "\\r"
  else String.singleton c

/-- A JSON string literal. -/
def jsonStr (s : String) : String :=
  "\"" ++ String.join (s.toList.map jsonEscapeChar) ++ "\""

/-- Join JSON members with commas. -/
def commaJoin : List String → String
  | [] => ""
  | [s] => s
  | s :: rest => s ++ "," ++ commaJoin rest

/-- A JSON object from already-serialized member values, in insertion order. -/
def jsonObjOf (l : List (String × String)) : String :=
  "\x7b" ++ commaJoin (l.map (fun kv => jsonStr kv.1 ++ ":" ++ kv.2)) ++ "\x7d"

/-- A JSON array from already-serialized elements. -/
def jsonArrOf (l : List String) : String :=
  "[" ++ commaJoin l ++ "]"

/-- `JSON.stringify` of a JS value; `undefined` has no serialization and is
dropped from objects. -/
def jsonOfJSValue : JSValue → Option String
  | JSValue.undef => none
  | JSValue.vNull => some "null"
  | JSValue.vBool b => some (if b then "true" else "false")
  | JSValue.vNum n => some (toString n)
  | JSValue.vStr s => some (jsonStr s)

/-- `JSON.stringify(context)`: fields in declaration order. -/
def jsonStringifyContext (ctx : ExecutionContext) : String :=
  jsonObjOf
    [("command", jsonStr ctx.command),
     ("options", jsonObjOf (ctx.options.filterMap
        (fun kv => (jsonOfJSValue kv.2).map (fun v => (kv.1, v))))),
     ("args", jsonArrOf (ctx.args.map jsonStr)),
     ("env", jsonObjOf (ctx.env.map (fun kv => (kv.1, jsonStr kv.2))))]

/-- What the parent writes to the child's standard input. -/
inductive StdinEvent where
  | write : String → StdinEvent
  | close : StdinEvent
deriving DecidableEq, Repr

/-- The observable spawn of `executeExtension`: runner, argument vector,
environment overlay, and the standard-input interaction. -/
structure SpawnSpec where
  runner : String
  args : List String
  env : List (String × String)
  stdin : List StdinEvent
deriving DecidableEq, Repr

/-- The `passContext` gate: `extension.config?.passContext` truthiness. -/
def passContextIsSet : Option ExtensionConfig → Bool
  | some cfg => cfg.passContext.getD false
  | none => false

/-- Runner selection: an explicit non-empty `runner` in the config wins
(`if (!runner)` treats the empty string as unset); otherwise the script type
picks the interpreter, with the configured default as fallback. -/
def determineRunner (extension : Extension) (defaultRunner : String) : String :=
  let r := match extension.config with
    | some cfg => cfg.runner.getD ""
    | none => ""
  if r = "" then
    if extension.scriptType = "js" then "node"
    else if extension.scriptType = "ts" then "node"
    else if extension.scriptType = "sh" then "bash"
    else if extension.scriptType = "py" then "python3"
    else if extension.scriptType = "rb" then "ruby"
    else if extension.scriptType = "php" then "php"
    else defaultRunner
  else r

/-- `buildExecutionArgs`: every runner branch pushes the script path; then the
context args with the leading command-path positions and the global
`--verbose`/`--debug` flags filtered out. -/
def buildExecutionArgs (extension : Extension) (ctx : ExecutionContext) : List String :=
  let commandParts := splitOnSpace extension.command
  let filteredArgs := (ctx.args.enum.filter
    (fun p => decide (commandParts.length ≤ p.1) &&
      p.2 ≠ "--verbose" && p.2 ≠ "--debug")).map Prod.snd
  extension.scriptPath :: filteredArgs

/-- `executeExtension` up to the process boundary: builds the context, picks
the runner and argument vector, and (iff `passContext` is set) writes the
serialized context to the child's stdin and closes the stream.  The spawned
environment is `process.env` overlaid with `context.env`; only the overlay is
modelled. -/
def executeExtension (extension : Extension) (options : List (String × JSValue))
    (argv : List String) (defaultRunner : String) : SpawnSpec :=
  let context : ExecutionContext :=
    ⟨extension.command, options, argv, buildEnvironment extension options⟩
  let runner := determineRunner extension defaultRunner
  let args := buildExecutionArgs extension context
  ⟨runner, args, context.env,
    if passContextIsSet extension.config then
      [StdinEvent.write (jsonStringifyContext context), StdinEvent.close]
    else []⟩

/-! ### Loader state: caching -/

/-- The mutable fields of `ExtensionLoader`. -/
structure LoaderState where
  extensionsCache : List Extension
  extensionSourcesCache : List ExtensionSource
  conflictsCache : List ExtensionConflict
  cacheValid : Bool
deriving DecidableEq, Repr

/-- A freshly constructed loader. -/
def newLoaderState : LoaderState := ⟨[], [], [], false⟩

/-- The per-root discovery loop of `loadExtensions`: each configured root is
scanned and its extensions tagged with the root and its index as priority
(the index advances over falsy entries too, which are skipped). -/
def loadExtensionSources (fs : FS) (fuel : Nat) (extensionsDirs : List String) :
    List ExtensionSource :=
  extensionsDirs.enum.flatMap
    (fun p =>
      if p.2 = "" then []
      else (discoverExtensions fs fuel p.2 "").map (fun e => ⟨e, p.2, p.1⟩))

/-- `loadExtensions`: serve the cache when valid, else discover, merge, and
fill all three caches. -/
def loadExtensions (fs : FS) (fuel : Nat) (extensionsDirs : List String)
    (st : LoaderState) : List Extension × LoaderState :=
  if st.cacheValid then (st.extensionsCache, st)
  else
    let sources := loadExtensionSources fs fuel extensionsDirs
    let m := mergeExtensionsWithConflicts sources
    (m.1, ⟨m.1, sources, m.2, true⟩)

/-- `invalidateCache`: clear all three caches and the validity flag. -/
def invalidateCache (_st : LoaderState) : LoaderState := ⟨[], [], [], false⟩

/-- `getConflicts` returns a fresh array copy of the conflict cache; under
value semantics the copy is the cached list itself. -/
def getConflicts (st : LoaderState) : List ExtensionConflict := st.conflictsCache

/-- `getExtensionSources` likewise returns a copy of the source cache. -/
def getExtensionSources (st : LoaderState) : List ExtensionSource := st.extensionSourcesCache

/-! ### Command-path segments and alias siblings -/

/-- On a reversed char list, drop the last space-separated segment: the
remainder before the last space, or `none` when there is no space. -/
def dropLastSegRev : List Char → Option (List Char)
  | [] => none
  | c :: rest => if c = ' ' then some rest else dropLastSegRev rest

/-- Replace the final segment of a space-joined command path by `al`
(aliases are siblings in the same parent namespace). -/
def replaceLastSeg (cmd al : String) : String :=
  match dropLastSegRev cmd.toList.reverse with
  | none => al
  | some restRev => String.mk restRev.reverse ++ " " ++ al

/-- A string with no space character, so it forms a single path segment. -/
def spaceFreeL (l : List Char) : Bool := l.all (fun c => c ≠ ' ')

/-- A string with no space character. -/
def spaceFree (s : String) : Bool := spaceFreeL s.toList

/-- All alias strings of a config are single segments. -/
def configAliasesOk (cfg : ExtensionConfig) : Bool :=
  (match cfg.aliases with | some l => l | none => []).all spaceFree

/-- The parse outcome a file may carry is segment-clean. -/
def parseOk : Except Unit (Option ExtensionConfig) → Bool
  | Except.ok (some cfg) => configAliasesOk cfg
  | _ => true

mutual
/-- Entry names contain no space (so command paths stay segment-wise) and
carried configs have segment-clean aliases. -/
def entryWf : FSEntry → Bool
  | FSEntry.file n pr => spaceFreeL n.toList && parseOk pr
  | FSEntry.dir n cs => spaceFreeL n.toList && entriesWf cs

/-- `entryWf` over a list of children. -/
def entriesWf : List FSEntry → Bool
  | [] => true
  | e :: es => entryWf e && entriesWf es
end

/-- Well-formed filesystem for segment-level statements. -/
def fsWf (fs : FS) : Bool := entriesWf fs

/-- Every file-backed entry with declared aliases has, in the same output
list, one sibling entry per alias: same script path, same config and same
script type, with the final command segment replaced by the alias. -/
def AliasClosed (fs : FS) (out : List Extension) : Prop :=
  ∀ e, e ∈ out → statIsFile fs e.scriptPath = true →
    ∀ cfg, e.config = some cfg → ∀ al, al ∈ aliasesOf (some cfg) →
      ∃ e', e' ∈ out ∧ e'.command = replaceLastSeg e.command al ∧
        e'.scriptPath = e.scriptPath ∧ e'.config = e.config ∧
        e'.scriptType = e.scriptType

/-! ### Concrete fixtures -/

/-- A script from the high-priority root claiming command path `x`. -/
def extHighX : Extension := ⟨"x", "/high/x.sh", none, "sh"⟩

/-- A script from the low-priority root claiming the same command path `x`. -/
def extLowX : Extension := ⟨"x", "/low/x.py", none, "py"⟩

/-- An unrelated entry under another command path. -/
def extOtherY : Extension := ⟨"y", "/high/y.sh", none, "sh"⟩

/-- Source record for `extHighX` (priority 0). -/
def srcHighX : ExtensionSource := ⟨extHighX, "/high", 0⟩

/-- Source record for `extLowX` (priority 1). -/
def srcLowX : ExtensionSource := ⟨extLowX, "/low", 1⟩

/-- Source record for the unrelated entry. -/
def srcOtherY : ExtensionSource := ⟨extOtherY, "/high", 0⟩

/-- Sidecar config of `npm/show-scripts.sh`, declaring alias `ss`. -/
def showScriptsCfg : ExtensionConfig := { aliases := some ["ss"] }

/-- Root with `npm/show-scripts.sh` (alias `ss`) and the real `npm/ss.sh`. -/
def npmFs : FS :=
  [FSEntry.dir "exts"
    [FSEntry.dir "npm"
      [FSEntry.file "show-scripts.sh" (Except.ok none),
       FSEntry.file "show-scripts.yaml" (Except.ok (some showScriptsCfg)),
       FSEntry.file "ss.sh" (Except.ok none)]]]

/-- Directory sidecar config declaring an alias list. -/
def awsAliasCfg : ExtensionConfig := { description := some "AWS helpers", aliases := some ["cloud"] }

/-- Root whose `aws` directory carries a sidecar declaring alias `cloud`. -/
def dirAliasFs : FS :=
  [FSEntry.dir "exts"
    [FSEntry.dir "aws"
      [FSEntry.file "aws.yaml" (Except.ok (some awsAliasCfg)),
       FSEntry.file "login.sh" (Except.ok none)]]]

/-- Directory sidecar config of the `aws` namespace scenario. -/
def awsCfg : ExtensionConfig := { description := some "AWS helpers" }

/-- Root with `aws/aws.yaml` and `aws/s3/sync.sh`. -/
def awsFs : FS :=
  [FSEntry.dir "exts"
    [FSEntry.dir "aws"
      [FSEntry.file "aws.yaml" (Except.ok (some awsCfg)),
       FSEntry.dir "s3"
         [FSEntry.file "sync.sh" (Except.ok none)]]]]

/-- A sidecar config used by the loader fixtures. -/
def toolJsonCfg : ExtensionConfig := { description := some "from json" }

/-- A sidecar config parsing from YAML. -/
def toolYamlCfg : ExtensionConfig := { description := some "from yaml" }

/-- Root where both serializations of `tool`'s sidecar exist and parse. -/
def sidecarBothFs : FS :=
  [FSEntry.dir "exts"
    [FSEntry.file "tool.sh" (Except.ok none),
     FSEntry.file "tool.yaml" (Except.ok (some toolYamlCfg)),
     FSEntry.file "tool.json" (Except.ok (some toolJsonCfg))]]

/-- A pass-context extension fixture. -/
def genUuidCfg : ExtensionConfig := { passContext := some true }

/-- The resolved `gen uuid` entry used by the execution fixtures. -/
def genUuidExt : Extension := ⟨"gen uuid", "/exts/gen/uuid.sh", some genUuidCfg, "sh"⟩

/-- The original `npm show-scripts` entry. -/
def ssMainExt : Extension :=
  ⟨"npm show-scripts", "/exts/npm/show-scripts.sh", some showScriptsCfg, "sh"⟩

/-- The expanded alias entry `npm ss` of the same script. -/
def ssAliasExt : Extension :=
  ⟨"npm ss", "/exts/npm/show-scripts.sh", some showScriptsCfg, "sh"⟩

/-! ## Theorems

First the merge machinery: grouping by command is a filter, its keys are
duplicate-free, and the per-group processing is insensitive to everything
outside the group. -/

theorem findGroup_groupInsert (m : List (String × List ExtensionSource)) (c : String)
    (s : ExtensionSource) (c' : String) :
    findGroup c' (groupInsert m c s) =
      if c = c' then some ((findGroup c' m).getD [] ++ [s]) else findGroup c' m := by
  induction m with
  | nil =>
    by_cases h : c = c' <;> simp [groupInsert, findGroup, h]
  | cons hd tl ih =>
    obtain ⟨c₀, g₀⟩ := hd
    by_cases h₀ : c₀ = c
    · subst h₀
      by_cases h : c₀ = c' <;> simp [groupInsert, findGroup, h]
    · by_cases h : c₀ = c'
      · subst h
        have hne : ¬ c = c₀ := fun hcc => h₀ hcc.symm
        simp [groupInsert, findGroup, h₀, hne]
      · simp [groupInsert, findGroup, h₀, h, ih]

theorem findGroup_foldl (l : List ExtensionSource)
    (m : List (String × List ExtensionSource)) (c : String) :
    findGroup c (l.foldl (fun m s => groupInsert m s.extension.command s) m) =
      combineGroup (findGroup c m) (l.filter (fun s => s.extension.command == c)) := by
  induction l generalizing m with
  | nil =>
    match h : findGroup c m with
    | none => simp [combineGroup, h]
    | some g => simp [combineGroup, h]
  | cons s l ih =>
    simp only [List.foldl_cons]
    rw [ih, findGroup_groupInsert]
    by_cases hc : s.extension.command = c
    · have hbeq : (s.extension.command == c) = true := by simp [hc]
      rw [if_pos hc, List.filter_cons, if_pos hbeq]
      cases h : findGroup c m with
      | none => simp [combineGroup]
      | some g => simp [combineGroup, List.append_assoc]
    · have hbeq : (s.extension.command == c) = false := by
        simpa using hc
      rw [if_neg hc, List.filter_cons, if_neg (by simp [hbeq])]

theorem findGroup_groupByCommand (sources : List ExtensionSource) (c : String) :
    findGroup c (groupByCommand sources) =
      match sources.filter (fun s => s.extension.command == c) with
      | [] => none
      | f => some f := by
  have h := findGroup_foldl sources [] c
  simp only [groupByCommand]
  rw [h]
  cases hf : sources.filter (fun s => s.extension.command == c) with
  | nil => simp [findGroup, combineGroup]
  | cons x xs => simp [findGroup, combineGroup]

theorem groupKeys_groupInsert (m : List (String × List ExtensionSource)) (c : String)
    (s : ExtensionSource) :
    groupKeys (groupInsert m c s) =
      if c ∈ groupKeys m then groupKeys m else groupKeys m ++ [c] := by
  induction m with
  | nil => simp [groupInsert, groupKeys]
  | cons hd tl ih =>
    obtain ⟨c₀, g₀⟩ := hd
    by_cases h₀ : c₀ = c
    · subst h₀
      simp [groupInsert, groupKeys]
    · have hne : ¬ c = c₀ := fun hcc => h₀ hcc.symm
      simp only [groupInsert, if_neg h₀]
      have hcons : groupKeys ((c₀, g₀) :: groupInsert tl c s) =
          c₀ :: groupKeys (groupInsert tl c s) := rfl
      rw [hcons, ih]
      by_cases hmem : c ∈ groupKeys tl
      · rw [if_pos hmem, if_pos (show c ∈ groupKeys ((c₀, g₀) :: tl) from
          List.mem_cons_of_mem c₀ hmem)]
        rfl
      · rw [if_neg hmem, if_neg (show c ∉ groupKeys ((c₀, g₀) :: tl) from fun hc =>
          (List.mem_cons.mp hc).elim (fun e => hne e) (fun hm => hmem hm))]
        rfl

theorem groupKeys_nodup (sources : List ExtensionSource) :
    (groupKeys (groupByCommand sources)).Nodup := by
  suffices h : ∀ (l : List ExtensionSource) (m : List (String × List ExtensionSource)),
      (groupKeys m).Nodup →
      (groupKeys (l.foldl (fun m s => groupInsert m s.extension.command s) m)).Nodup by
    exact h sources [] (by simp [groupKeys])
  intro l
  induction l with
  | nil => intro m hm; simpa using hm
  | cons s l ih =>
    intro m hm
    simp only [List.foldl_cons]
    apply ih
    rw [groupKeys_groupInsert]
    by_cases hmem : s.extension.command ∈ groupKeys m
    · simpa [hmem] using hm
    · simp only [hmem, ite_false]
      exact List.Nodup.append hm (List.nodup_singleton _)
        (by simpa using fun h => hmem h)

theorem findGroup_of_mem (m : List (String × List ExtensionSource)) (c : String)
    (g : List ExtensionSource) (hmem : (c, g) ∈ m) (hnd : (groupKeys m).Nodup) :
    findGroup c m = some g := by
  induction m with
  | nil => cases hmem
  | cons hd tl ih =>
    obtain ⟨c₀, g₀⟩ := hd
    have hnd' : (c₀ :: groupKeys tl).Nodup := hnd
    obtain ⟨hn1, hn2⟩ := List.nodup_cons.mp hnd'
    rcases List.mem_cons.mp hmem with h | h
    · cases h
      simp [findGroup]
    · have hc : c₀ ≠ c := by
        intro hcc
        subst hcc
        exact hn1 (by simpa [groupKeys] using List.mem_map_of_mem Prod.fst h)
      simp only [findGroup, if_neg hc]
      exact ih h hn2

theorem groupByCommand_group_eq (sources : List ExtensionSource) (c : String)
    (g : List ExtensionSource) (hmem : (c, g) ∈ groupByCommand sources) :
    g = sources.filter (fun s => s.extension.command == c) ∧ g ≠ [] := by
  have h1 := findGroup_of_mem _ _ _ hmem (groupKeys_nodup sources)
  have h2 := findGroup_groupByCommand sources c
  rw [h1] at h2
  cases hf : sources.filter (fun s => s.extension.command == c) with
  | nil => rw [hf] at h2; cases h2
  | cons x xs =>
    rw [hf] at h2
    simp only [Option.some.injEq] at h2
    exact ⟨h2, by rw [h2]; simp⟩

theorem insertByPriority_perm (s : ExtensionSource) (l : List ExtensionSource) :
    List.Perm (insertByPriority s l) (s :: l) := by
  induction l with
  | nil => simp [insertByPriority]
  | cons t ts ih =>
    simp only [insertByPriority]
    by_cases h : s.priority ≤ t.priority
    · simp [h]
    · simp only [if_neg h]
      exact (ih.cons t).trans (List.Perm.swap s t ts)

theorem sortByPriority_perm (l : List ExtensionSource) :
    List.Perm (sortByPriority l) l := by
  induction l with
  | nil => simp [sortByPriority]
  | cons x xs ih =>
    simp only [sortByPriority, List.foldr_cons]
    exact (insertByPriority_perm x _).trans (ih.cons x)

theorem flatMap_filter_key_nil {α : Type} (keyOf : α → String)
    (F : String × List ExtensionSource → List α) (c : String) :
    ∀ (m : List (String × List ExtensionSource)),
      (∀ cg ∈ m, ∀ x ∈ F cg, keyOf x = cg.1) → c ∉ groupKeys m →
      (m.flatMap F).filter (fun x => keyOf x == c) = [] := by
  intro m
  induction m with
  | nil => intro _ _; simp
  | cons hd tl ih =>
    intro hF hc
    obtain ⟨c₀, g₀⟩ := hd
    have hc₀ : c₀ ≠ c := by
      intro h; exact hc (by simp [groupKeys, h])
    have htl : c ∉ groupKeys tl := fun h => hc (by simp [groupKeys] at h ⊢; right; exact h)
    simp only [List.flatMap_cons, List.filter_append]
    rw [ih (fun cg h x hx => hF cg (List.mem_cons_of_mem _ h) x hx) htl]
    rw [List.filter_eq_nil_iff.mpr, List.nil_append]
    intro x hx
    have := hF (c₀, g₀) (List.mem_cons_self _ _) x hx
    simp only [this]
    simpa using hc₀

theorem flatMap_filter_key {α : Type} (keyOf : α → String)
    (F : String × List ExtensionSource → List α) (c : String) :
    ∀ (m : List (String × List ExtensionSource)), (groupKeys m).Nodup →
      (∀ cg ∈ m, ∀ x ∈ F cg, keyOf x = cg.1) →
      (m.flatMap F).filter (fun x => keyOf x == c) =
        (match findGroup c m with
         | some g => F (c, g)
         | none => []) := by
  intro m
  induction m with
  | nil => intro _ _; simp [findGroup]
  | cons hd tl ih =>
    intro hnd hF
    obtain ⟨c₀, g₀⟩ := hd
    simp only [List.flatMap_cons, List.filter_append]
    by_cases hc : c₀ = c
    · subst hc
      have h1 : (F (c₀, g₀)).filter (fun x => keyOf x == c₀) = F (c₀, g₀) := by
        rw [List.filter_eq_self]
        intro x hx
        simp [hF (c₀, g₀) (List.mem_cons_self _ _) x hx]
      have hnotin : c₀ ∉ groupKeys tl :=
        (List.nodup_cons.mp (show (c₀ :: groupKeys tl).Nodup from hnd)).1
      rw [h1, flatMap_filter_key_nil keyOf F c₀ tl
        (fun cg h x hx => hF cg (List.mem_cons_of_mem _ h) x hx) hnotin]
      simp [findGroup]
    · have h1 : (F (c₀, g₀)).filter (fun x => keyOf x == c) = [] := by
        rw [List.filter_eq_nil_iff]
        intro x hx
        have := hF (c₀, g₀) (List.mem_cons_self _ _) x hx
        simp only [this]
        simpa using hc
      rw [h1, List.nil_append]
      have := ih (List.nodup_cons.mp (show (c₀ :: groupKeys tl).Nodup from hnd)).2
        (fun cg h x hx => hF cg (List.mem_cons_of_mem _ h) x hx)
      rw [this]
      simp [findGroup, hc]

theorem merged_filter_eq (sources : List ExtensionSource) (c : String) :
    (mergeExtensionsWithConflicts sources).1.filter (fun e => e.command == c) =
      (match findGroup c (groupByCommand sources) with
       | some g => mergeGroupEntry (c, g)
       | none => []) := by
  apply flatMap_filter_key (fun e => e.command) mergeGroupEntry c _
    (groupKeys_nodup sources)
  intro cg hcg x hx
  obtain ⟨c₀, g₀⟩ := cg
  simp only [mergeGroupEntry] at hx
  match hs : sortByPriority g₀ with
  | [] => rw [hs] at hx; cases hx
  | p :: r =>
    rw [hs] at hx
    rcases List.mem_singleton.mp hx with rfl
    have hp : p ∈ g₀ := by
      have := (sortByPriority_perm g₀).mem_iff.mp (by rw [hs]; exact List.mem_cons_self _ _)
      exact this
    have hg := (groupByCommand_group_eq sources c₀ g₀ hcg).1
    rw [hg] at hp
    have := (List.mem_filter.mp hp).2
    simpa using this

theorem conflicts_filter_eq (sources : List ExtensionSource) (c : String) :
    (mergeExtensionsWithConflicts sources).2.filter (fun k => k.command == c) =
      (match findGroup c (groupByCommand sources) with
       | some g => mergeGroupConflict (c, g)
       | none => []) := by
  apply flatMap_filter_key (fun k => k.command) mergeGroupConflict c _
    (groupKeys_nodup sources)
  intro cg hcg x hx
  obtain ⟨c₀, g₀⟩ := cg
  simp only [mergeGroupConflict] at hx
  match hs : sortByPriority g₀ with
  | [] => rw [hs] at hx; cases hx
  | _ :: [] => rw [hs] at hx; cases hx
  | p :: q :: r =>
    rw [hs] at hx
    rcases List.mem_singleton.mp hx with rfl
    rfl

/-- Claim C1: when the sources carrying command path `c` are exactly one entry
of priority 0 and one of priority 1 — in either scan order, with arbitrary
unrelated entries elsewhere in the input — the merge places the priority-0
extension in the merged table for `c` and emits one Conflict for `c` whose
losers are exactly the priority-1 extension (with its root); no modification
time is consulted because the result is a function of these inputs alone. -/
theorem mergePriorityDeterminism (sources : List ExtensionSource) (c : String)
    (a b : ExtensionSource) (ha : a.priority = 0) (hb : b.priority = 1)
    (hf : sources.filter (fun s => s.extension.command == c) = [a, b] ∨
          sources.filter (fun s => s.extension.command == c) = [b, a]) :
    (mergeExtensionsWithConflicts sources).1.filter (fun e => e.command == c) =
      [a.extension] ∧
    (mergeExtensionsWithConflicts sources).2.filter (fun k => k.command == c) =
      [⟨c, a.extension, [⟨b.extension, b.sourceDir⟩]⟩] := by
  have hsAB : sortByPriority [a, b] = [a, b] := by
    simp [sortByPriority, insertByPriority, ha, hb]
  have hsBA : sortByPriority [b, a] = [a, b] := by
    simp [sortByPriority, insertByPriority, ha, hb]
  have hfg := findGroup_groupByCommand sources c
  constructor
  · rw [merged_filter_eq sources c]
    rcases hf with hf | hf <;> rw [hf] at hfg <;> rw [hfg] <;>
      simp [mergeGroupEntry, hsAB, hsBA]
  · rw [conflicts_filter_eq sources c]
    rcases hf with hf | hf <;> rw [hf] at hfg <;> rw [hfg] <;>
      simp [mergeGroupConflict, hsAB, hsBA]

/-- Witness for C1 at a concrete input containing an unrelated entry. -/
theorem mergePriorityDeterminism_witness :
    (mergeExtensionsWithConflicts [srcOtherY, srcHighX, srcLowX]).1.filter
        (fun e => e.command == "x") = [extHighX] ∧
    (mergeExtensionsWithConflicts [srcOtherY, srcHighX, srcLowX]).2.filter
        (fun k => k.command == "x") = [⟨"x", extHighX, [⟨extLowX, "/low"⟩]⟩] :=
  mergePriorityDeterminism [srcOtherY, srcHighX, srcLowX] "x" srcHighX srcLowX
    rfl rfl (Or.inl (by decide))

/-- Claim C2: every command path occurring in the input source list shows up
in the merged table exactly once, and either its group has a single source
and no conflict record, or there is exactly one conflict record for it whose
winner and losers together are a permutation of all sources carrying that
path — nothing is silently dropped. -/
theorem mergeNoSilentLoss (sources : List ExtensionSource) (c : String)
    (hc : c ∈ sources.map (fun s => s.extension.command)) :
    ∃ w : Extension,
      (mergeExtensionsWithConflicts sources).1.filter (fun e => e.command == c) = [w] ∧
      (((sources.filter (fun s => s.extension.command == c)).map
            (fun s => s.extension) = [w] ∧
        (mergeExtensionsWithConflicts sources).2.filter (fun k => k.command == c) = []) ∨
       (∃ conf : ExtensionConflict,
         (mergeExtensionsWithConflicts sources).2.filter (fun k => k.command == c) = [conf] ∧
         conf.primaryExtension = w ∧
         List.Perm (w :: conf.conflictingExtensions.map (fun x => x.extension))
           ((sources.filter (fun s => s.extension.command == c)).map
             (fun s => s.extension)))) := by
  obtain ⟨s, hs, hcmd⟩ := List.mem_map.mp hc
  have hmemf : s ∈ sources.filter (fun s => s.extension.command == c) :=
    List.mem_filter.mpr ⟨hs, by simp [hcmd]⟩
  cases hflt : sources.filter (fun s => s.extension.command == c) with
  | nil => rw [hflt] at hmemf; cases hmemf
  | cons x xs =>
    have hfg := findGroup_groupByCommand sources c
    rw [hflt] at hfg
    have hperm : List.Perm (sortByPriority (x :: xs)) (x :: xs) :=
      sortByPriority_perm (x :: xs)
    cases hsrt : sortByPriority (x :: xs) with
    | nil =>
      rw [hsrt] at hperm
      cases hperm.symm.eq_nil
    | cons p r =>
      refine ⟨p.extension, ?_, ?_⟩
      · rw [merged_filter_eq sources c, hfg]
        simp [mergeGroupEntry, hsrt]
      · cases hre : r with
        | nil =>
          left
          rw [hsrt, hre] at hperm
          have hxxs : x :: xs = [p] := (List.perm_singleton.mp hperm.symm)
          constructor
          · rw [hxxs]; rfl
          · rw [conflicts_filter_eq sources c, hfg]
            rw [hre] at hsrt
            simp [mergeGroupConflict, hsrt]
        | cons q r' =>
          right
          refine ⟨⟨c, p.extension, (q :: r').map (fun s => ⟨s.extension, s.sourceDir⟩)⟩,
            ?_, rfl, ?_⟩
          · rw [conflicts_filter_eq sources c, hfg]
            rw [hre] at hsrt
            simp [mergeGroupConflict, hsrt]
          · rw [hre] at hsrt
            have : (p.extension ::
                (((q :: r').map (fun s => (⟨s.extension, s.sourceDir⟩ : ConflictingExtension))).map
                  (fun x => x.extension))) =
                (p :: q :: r').map (fun s => s.extension) := by
              simp [List.map_map, Function.comp]
            rw [show (⟨c, p.extension,
                (q :: r').map (fun s => ⟨s.extension, s.sourceDir⟩)⟩ :
                ExtensionConflict).conflictingExtensions =
                (q :: r').map (fun s => ⟨s.extension, s.sourceDir⟩) from rfl]
            rw [this, ← hsrt]
            exact hperm.map (fun s => s.extension)

/-- Witness for C2 at a concrete input with a two-way collision. -/
theorem mergeNoSilentLoss_witness :
    ∃ w : Extension,
      (mergeExtensionsWithConflicts [srcOtherY, srcHighX, srcLowX]).1.filter
          (fun e => e.command == "x") = [w] ∧
      ((([srcOtherY, srcHighX, srcLowX].filter
            (fun s => s.extension.command == "x")).map (fun s => s.extension) = [w] ∧
        (mergeExtensionsWithConflicts [srcOtherY, srcHighX, srcLowX]).2.filter
            (fun k => k.command == "x") = []) ∨
       (∃ conf : ExtensionConflict,
         (mergeExtensionsWithConflicts [srcOtherY, srcHighX, srcLowX]).2.filter
             (fun k => k.command == "x") = [conf] ∧
         conf.primaryExtension = w ∧
         List.Perm (w :: conf.conflictingExtensions.map (fun x => x.extension))
           (([srcOtherY, srcHighX, srcLowX].filter
               (fun s => s.extension.command == "x")).map (fun s => s.extension)))) :=
  mergeNoSilentLoss [srcOtherY, srcHighX, srcLowX] "x" (by decide)

/-- Claim C5 (amended): when exactly two sources of equal priority carry the
same command path, the merge deterministically selects the one that was
scanned first (declaration order: the sort is stable), places it in the
merged table, and records one Conflict naming the other as the loser.  In
the `npm ss` scenario the alias entry of the earlier-scanned
`show-scripts.sh` wins over the real file `ss.sh`. -/
theorem samePriorityScanOrderWins (sources : List ExtensionSource) (c : String)
    (s1 s2 : ExtensionSource) (hp : s1.priority = s2.priority)
    (hf : sources.filter (fun s => s.extension.command == c) = [s1, s2]) :
    (mergeExtensionsWithConflicts sources).1.filter (fun e => e.command == c) =
      [s1.extension] ∧
    (mergeExtensionsWithConflicts sources).2.filter (fun k => k.command == c) =
      [⟨c, s1.extension, [⟨s2.extension, s2.sourceDir⟩]⟩] := by
  have hs : sortByPriority [s1, s2] = [s1, s2] := by
    simp [sortByPriority, insertByPriority, hp]
  have hfg := findGroup_groupByCommand sources c
  rw [hf] at hfg
  constructor
  · rw [merged_filter_eq sources c, hfg]
    simp [mergeGroupEntry, hs]
  · rw [conflicts_filter_eq sources c, hfg]
    simp [mergeGroupConflict, hs]

/-- Witness for the amended C5: the `npm` alias-collision scenario, resolved
through the full discovery-and-merge pipeline. -/
theorem samePriorityScanOrderWins_witness :
    (mergeExtensionsWithConflicts (loadExtensionSources npmFs 4 ["/exts"])).1.filter
        (fun e => e.command == "npm ss") =
      [⟨"npm ss", "/exts/npm/show-scripts.sh", some showScriptsCfg, "sh"⟩] ∧
    (mergeExtensionsWithConflicts (loadExtensionSources npmFs 4 ["/exts"])).2.filter
        (fun k => k.command == "npm ss") =
      [⟨"npm ss", ⟨"npm ss", "/exts/npm/show-scripts.sh", some showScriptsCfg, "sh"⟩,
        [⟨⟨"npm ss", "/exts/npm/ss.sh", none, "sh"⟩, "/exts"⟩]⟩] :=
  samePriorityScanOrderWins (loadExtensionSources npmFs 4 ["/exts"]) "npm ss"
    ⟨⟨"npm ss", "/exts/npm/show-scripts.sh", some showScriptsCfg, "sh"⟩, "/exts", 0⟩
    ⟨⟨"npm ss", "/exts/npm/ss.sh", none, "sh"⟩, "/exts", 0⟩ rfl (by decide)

/-- Counterexample to C5 as stated: in the scenario where
`npm/show-scripts.sh` declares alias `ss` and the real script `npm/ss.sh`
exists, the winner of `npm ss` is the alias entry pointing at
`show-scripts.sh`, and the real file is the recorded loser — the code does
not prefer the real file. -/
theorem aliasCollisionRealFileLoses :
    ((mergeExtensionsWithConflicts (loadExtensionSources npmFs 4 ["/exts"])).1.filter
        (fun e => e.command == "npm ss")).map (fun e => e.scriptPath) =
      ["/exts/npm/show-scripts.sh"] ∧
    ((mergeExtensionsWithConflicts (loadExtensionSources npmFs 4 ["/exts"])).2.filter
        (fun k => k.command == "npm ss")).map
        (fun k => k.conflictingExtensions.map (fun x => x.extension.scriptPath)) =
      [["/exts/npm/ss.sh"]] ∧
    statIsFile npmFs "/exts/npm/ss.sh" = true := by decide

/-- Claim C6 (amended): the root with `aws/aws.yaml` (description "AWS
helpers") and `aws/s3/sync.sh` yields both a virtual entry at command path
`aws` carrying that description — tagged with script type "js", the tag the
loader gives every virtual directory entry — and a separate leaf entry at
`aws s3 sync`; the two occupy distinct command paths and neither collides. -/
theorem directoryMetadataNamespace :
    (⟨"aws", "/exts/aws", some awsCfg, "js"⟩ : Extension) ∈
      discoverExtensions awsFs 4 "/exts" "" ∧
    (⟨"aws s3 sync", "/exts/aws/s3/sync.sh", none, "sh"⟩ : Extension) ∈
      discoverExtensions awsFs 4 "/exts" "" ∧
    awsCfg.description = some "AWS helpers" ∧
    ("aws" : String) ≠ "aws s3 sync" ∧
    ((discoverExtensions awsFs 4 "/exts" "").filter
        (fun e => e.command == "aws")).length = 1 ∧
    ((discoverExtensions awsFs 4 "/exts" "").filter
        (fun e => e.command == "aws s3 sync")).length = 1 := by decide

/-- Counterexample to C6 as stated: no discovered entry ever carries the
descriptor type "virtual" — the `aws` virtual entry is tagged "js" (the
`Extension` script-type union has no "virtual" member at all). -/
theorem virtualEntryTypeIsJsNotVirtual :
    ((discoverExtensions awsFs 4 "/exts" "").filter
        (fun e => e.command == "aws")).map (fun e => e.scriptType) = ["js"] ∧
    ∀ e ∈ discoverExtensions awsFs 4 "/exts" "", e.scriptType ≠ "virtual" := by decide

theorem lookupVar_setVar (env : List (String × String)) (k k' v : String) :
    lookupVar k (setVar env k' v) = if k' = k then some v else lookupVar k env := by
  induction env with
  | nil =>
    by_cases h : k' = k <;> simp [setVar, lookupVar, h]
  | cons kv rest ih =>
    simp only [setVar]
    by_cases h1 : kv.1 = k'
    · rw [if_pos h1]
      by_cases h2 : k' = k
      · simp [lookupVar, h2]
      · have h3 : ¬ kv.1 = k := by rw [h1]; exact h2
        simp [lookupVar, h2, h3]
    · rw [if_neg h1]
      by_cases h3 : kv.1 = k
      · by_cases h2 : k' = k
        · exact absurd (h3.trans h2.symm) h1
        · simp [lookupVar, h3, h2]
      · simp [lookupVar, h3, ih]

theorem applyOption_defined (env : List (String × String)) (kv : String × JSValue)
    (hv : kv.2 ≠ JSValue.undef) :
    applyOption env kv = setVar env ("RC_" ++ toUpperJS kv.1) (jsString kv.2) := by
  cases h : kv.2 with
  | undef => exact absurd h hv
  | vNull => simp [applyOption, h]
  | vBool b => simp [applyOption, h]
  | vNum n => simp [applyOption, h]
  | vStr s => simp [applyOption, h]

theorem applyOption_undef (env : List (String × String)) (kv : String × JSValue)
    (hv : kv.2 = JSValue.undef) : applyOption env kv = env := by
  simp [applyOption, hv]

theorem lookupVar_foldl_untouched (options : List (String × JSValue))
    (env : List (String × String)) (k : String)
    (h : ∀ kv ∈ options, kv.2 ≠ JSValue.undef → "RC_" ++ toUpperJS kv.1 ≠ k) :
    lookupVar k (options.foldl applyOption env) = lookupVar k env := by
  induction options generalizing env with
  | nil => rfl
  | cons kv rest ih =>
    simp only [List.foldl_cons]
    rw [ih _ (fun kv' h' hv => h kv' (List.mem_cons_of_mem _ h') hv)]
    by_cases hv : kv.2 = JSValue.undef
    · rw [applyOption_undef env kv hv]
    · rw [applyOption_defined env kv hv, lookupVar_setVar,
        if_neg (h kv (List.mem_cons_self _ _) hv)]

theorem lookupVar_foldl_agree (options : List (String × JSValue)) :
    ∀ env₁ env₂ : List (String × String),
      (∀ k, k ≠ "RC_COMMAND" → lookupVar k env₁ = lookupVar k env₂) →
      ∀ k, k ≠ "RC_COMMAND" →
        lookupVar k (options.foldl applyOption env₁) =
          lookupVar k (options.foldl applyOption env₂) := by
  induction options with
  | nil => intro env₁ env₂ h k hk; exact h k hk
  | cons hd tl ih =>
    intro env₁ env₂ h k hk
    simp only [List.foldl_cons]
    refine ih _ _ ?_ k hk
    intro k'' hk''
    by_cases hv : hd.2 = JSValue.undef
    · rw [applyOption_undef env₁ hd hv, applyOption_undef env₂ hd hv]
      exact h k'' hk''
    · rw [applyOption_defined env₁ hd hv, applyOption_defined env₂ hd hv,
        lookupVar_setVar, lookupVar_setVar]
      by_cases hkey : "RC_" ++ toUpperJS hd.1 = k''
      · simp [hkey]
      · simp only [if_neg hkey]
        exact h k'' hk''

theorem lookupVar_foldl_defined (options : List (String × JSValue))
    (env : List (String × String)) (kv : String × JSValue)
    (hnd : (options.map (fun kv => "RC_" ++ toUpperJS kv.1)).Nodup)
    (hmem : kv ∈ options) (hv : kv.2 ≠ JSValue.undef) :
    lookupVar ("RC_" ++ toUpperJS kv.1) (options.foldl applyOption env) =
      some (jsString kv.2) := by
  induction options generalizing env with
  | nil => cases hmem
  | cons hd tl ih =>
    obtain ⟨hn1, hn2⟩ := List.nodup_cons.mp hnd
    rcases List.mem_cons.mp hmem with h | h
    · subst h
      simp only [List.foldl_cons]
      have hnotin : ∀ kv' ∈ tl, kv'.2 ≠ JSValue.undef →
          "RC_" ++ toUpperJS kv'.1 ≠ "RC_" ++ toUpperJS kv.1 := by
        intro kv' h' _ hkey
        apply hn1
        show "RC_" ++ toUpperJS kv.1 ∈ List.map (fun kv => "RC_" ++ toUpperJS kv.1) tl
        rw [← hkey]
        exact List.mem_map_of_mem _ h'
      rw [lookupVar_foldl_untouched tl _ _ hnotin]
      rw [applyOption_defined env kv hv, lookupVar_setVar, if_pos rfl]
    · simp only [List.foldl_cons]
      exact ih _ hn2 h

/-- Claim C4 (amended): an alias entry and its original share the script
path, config and script type by construction, so executing either with the
same options selects the same script and yields overlays that agree on every
variable other than `RC_COMMAND`, while `RC_COMMAND` holds the command path
actually typed — provided no defined option is itself named so that its
`RC_`-variable is `RC_COMMAND`, since such an option overwrites the variable
in both overlays. -/
theorem aliasRoutingEquivalence (e e' : Extension) (options : List (String × JSValue))
    (hsp : e'.scriptPath = e.scriptPath) (hcf : e'.config = e.config)
    (hst : e'.scriptType = e.scriptType)
    (hnc : ∀ kv ∈ options, kv.2 ≠ JSValue.undef → "RC_" ++ toUpperJS kv.1 ≠ "RC_COMMAND") :
    lookupVar "RC_COMMAND" (buildEnvironment e' options) = some e'.command ∧
    lookupVar "RC_COMMAND" (buildEnvironment e options) = some e.command ∧
    ∀ k, k ≠ "RC_COMMAND" →
      lookupVar k (buildEnvironment e' options) = lookupVar k (buildEnvironment e options) := by
  have hinit : ∀ ext : Extension,
      (setVar (setVar (setVar [] "RC_COMMAND" ext.command)
        "RC_SCRIPT_PATH" ext.scriptPath) "RC_SCRIPT_TYPE" ext.scriptType) =
      [("RC_COMMAND", ext.command), ("RC_SCRIPT_PATH", ext.scriptPath),
       ("RC_SCRIPT_TYPE", ext.scriptType)] := fun ext => rfl
  refine ⟨?_, ?_, ?_⟩
  · rw [buildEnvironment, lookupVar_foldl_untouched options _ _ hnc, hinit]
    rfl
  · rw [buildEnvironment, lookupVar_foldl_untouched options _ _ hnc, hinit]
    rfl
  · intro k hk
    rw [buildEnvironment, buildEnvironment]
    apply lookupVar_foldl_agree options _ _ _ k hk
    intro k' hk'
    rw [hinit, hinit]
    by_cases h1 : k' = "RC_SCRIPT_PATH"
    · subst h1; simp [lookupVar, hsp]
    · by_cases h2 : k' = "RC_SCRIPT_TYPE"
      · subst h2; simp [lookupVar, hst]
      · have hc' : ¬ ("RC_COMMAND" = k') := fun h => hk' h.symm
        have hp' : ¬ ("RC_SCRIPT_PATH" = k') := fun h => h1 h.symm
        have ht' : ¬ ("RC_SCRIPT_TYPE" = k') := fun h => h2 h.symm
        simp [lookupVar, hc', hp', ht']

/-- Witness for the amended C4 on the `npm ss` alias pair. -/
theorem aliasRoutingEquivalence_witness :
    lookupVar "RC_COMMAND" (buildEnvironment ssAliasExt [("env", JSValue.vStr "prod")]) =
      some ssAliasExt.command ∧
    lookupVar "RC_COMMAND" (buildEnvironment ssMainExt [("env", JSValue.vStr "prod")]) =
      some ssMainExt.command ∧
    ∀ k, k ≠ "RC_COMMAND" →
      lookupVar k (buildEnvironment ssAliasExt [("env", JSValue.vStr "prod")]) =
        lookupVar k (buildEnvironment ssMainExt [("env", JSValue.vStr "prod")]) :=
  aliasRoutingEquivalence ssMainExt ssAliasExt [("env", JSValue.vStr "prod")]
    rfl rfl rfl (by decide)

/-- Counterexample to C4 as stated: a user option named `command` overwrites
`RC_COMMAND` in the overlay, so the variable no longer equals the command
path that was actually used. -/
theorem aliasEnvCommandOptionOverride :
    lookupVar "RC_COMMAND" (buildEnvironment ssAliasExt [("command", JSValue.vStr "zzz")]) =
      some "zzz" ∧
    ssAliasExt.command ≠ "zzz" ∧
    lookupVar "RC_COMMAND" (buildEnvironment ssMainExt [("command", JSValue.vStr "zzz")]) =
      some "zzz" := by decide

/-- Claim C8 (amended): the overlay always holds `RC_COMMAND`,
`RC_SCRIPT_PATH` and `RC_SCRIPT_TYPE`, plus `RC_<NAME-uppercased>` with the
stringified value for exactly those options whose value is defined (not
`undefined`) — including empty strings and `null` — provided the uppercased
option names are pairwise distinct and none collides with the three fixed
variables (a colliding option would overwrite them). -/
theorem buildEnvironmentContents (extension : Extension)
    (options : List (String × JSValue))
    (hnd : (options.map (fun kv => "RC_" ++ toUpperJS kv.1)).Nodup)
    (hfixed : ∀ kv ∈ options, "RC_" ++ toUpperJS kv.1 ≠ "RC_COMMAND" ∧
      "RC_" ++ toUpperJS kv.1 ≠ "RC_SCRIPT_PATH" ∧ "RC_" ++ toUpperJS kv.1 ≠ "RC_SCRIPT_TYPE") :
    lookupVar "RC_COMMAND" (buildEnvironment extension options) = some extension.command ∧
    lookupVar "RC_SCRIPT_PATH" (buildEnvironment extension options) =
      some extension.scriptPath ∧
    lookupVar "RC_SCRIPT_TYPE" (buildEnvironment extension options) =
      some extension.scriptType ∧
    (∀ kv ∈ options, kv.2 ≠ JSValue.undef →
      lookupVar ("RC_" ++ toUpperJS kv.1) (buildEnvironment extension options) =
        some (jsString kv.2)) ∧
    (∀ kv ∈ options, kv.2 = JSValue.undef →
      lookupVar ("RC_" ++ toUpperJS kv.1) (buildEnvironment extension options) = none) := by
  have hinit : (setVar (setVar (setVar [] "RC_COMMAND" extension.command)
      "RC_SCRIPT_PATH" extension.scriptPath) "RC_SCRIPT_TYPE" extension.scriptType) =
      [("RC_COMMAND", extension.command), ("RC_SCRIPT_PATH", extension.scriptPath),
       ("RC_SCRIPT_TYPE", extension.scriptType)] := rfl
  refine ⟨?_, ?_, ?_, ?_, ?_⟩
  · rw [buildEnvironment, lookupVar_foldl_untouched options _ _
      (fun kv h _ => (hfixed kv h).1), hinit]
    rfl
  · rw [buildEnvironment, lookupVar_foldl_untouched options _ _
      (fun kv h _ => (hfixed kv h).2.1), hinit]
    rfl
  · rw [buildEnvironment, lookupVar_foldl_untouched options _ _
      (fun kv h _ => (hfixed kv h).2.2), hinit]
    rfl
  · intro kv hmem hv
    rw [buildEnvironment]
    exact lookupVar_foldl_defined options _ kv hnd hmem hv
  · intro kv hmem hv
    have huntouched : ∀ kv' ∈ options, kv'.2 ≠ JSValue.undef →
        "RC_" ++ toUpperJS kv'.1 ≠ "RC_" ++ toUpperJS kv.1 := by
      intro kv' hmem' hv' hkey
      have heq : kv' = kv := List.inj_on_of_nodup_map hnd hmem' hmem hkey
      rw [heq] at hv'
      exact hv' hv
    rw [buildEnvironment, lookupVar_foldl_untouched options _ _ huntouched, hinit]
    have h1 : ¬ ("RC_COMMAND" = "RC_" ++ toUpperJS kv.1) :=
      fun h => (hfixed kv hmem).1 h.symm
    have h2 : ¬ ("RC_SCRIPT_PATH" = "RC_" ++ toUpperJS kv.1) :=
      fun h => (hfixed kv hmem).2.1 h.symm
    have h3 : ¬ ("RC_SCRIPT_TYPE" = "RC_" ++ toUpperJS kv.1) :=
      fun h => (hfixed kv hmem).2.2 h.symm
    simp [lookupVar, h1, h2, h3]

/-- Witness for the amended C8: a defined string option, a defined boolean
option, and an undefined option. -/
theorem buildEnvironmentContents_witness :
    lookupVar "RC_COMMAND" (buildEnvironment genUuidExt
      [("env", JSValue.vStr "prod"), ("force", JSValue.vBool true),
       ("quiet", JSValue.undef)]) = some genUuidExt.command ∧
    lookupVar "RC_SCRIPT_PATH" (buildEnvironment genUuidExt
      [("env", JSValue.vStr "prod"), ("force", JSValue.vBool true),
       ("quiet", JSValue.undef)]) = some genUuidExt.scriptPath ∧
    lookupVar "RC_SCRIPT_TYPE" (buildEnvironment genUuidExt
      [("env", JSValue.vStr "prod"), ("force", JSValue.vBool true),
       ("quiet", JSValue.undef)]) = some genUuidExt.scriptType ∧
    (∀ kv ∈ [("env", JSValue.vStr "prod"), ("force", JSValue.vBool true),
       ("quiet", JSValue.undef)], kv.2 ≠ JSValue.undef →
      lookupVar ("RC_" ++ toUpperJS kv.1) (buildEnvironment genUuidExt
        [("env", JSValue.vStr "prod"), ("force", JSValue.vBool true),
         ("quiet", JSValue.undef)]) = some (jsString kv.2)) ∧
    (∀ kv ∈ [("env", JSValue.vStr "prod"), ("force", JSValue.vBool true),
       ("quiet", JSValue.undef)], kv.2 = JSValue.undef →
      lookupVar ("RC_" ++ toUpperJS kv.1) (buildEnvironment genUuidExt
        [("env", JSValue.vStr "prod"), ("force", JSValue.vBool true),
         ("quiet", JSValue.undef)]) = none) :=
  buildEnvironmentContents genUuidExt
    [("env", JSValue.vStr "prod"), ("force", JSValue.vBool true), ("quiet", JSValue.undef)]
    (by decide) (by decide)

/-- Counterexample to C8 as stated: options with an empty-string value and
with a `null` value are not "non-empty", yet the loop (`value !== undefined`)
still sets their variables — to `""` and `"null"` respectively. -/
theorem buildEnvironmentEmptyValue :
    lookupVar "RC_FOO" (buildEnvironment genUuidExt [("foo", JSValue.vStr "")]) =
      some "" ∧
    lookupVar "RC_BAR" (buildEnvironment genUuidExt [("bar", JSValue.vNull)]) =
      some "null" := by decide

/-- Claim C9 (amended): iff the metadata's pass-context flag is set, exactly
one JSON document — serializing the command path, the resolved options, the
full raw argument vector (`process.argv.slice(2)`, which still includes the
command-path tokens, not only the residual arguments), and the environment
overlay — is written to the child's standard input and the stream is then
closed; with the flag unset nothing is written. -/
theorem passContextStdinBehavior (extension : Extension)
    (options : List (String × JSValue)) (argv : List String) (defaultRunner : String) :
    (passContextIsSet extension.config = true →
      (executeExtension extension options argv defaultRunner).stdin =
        [StdinEvent.write (jsonStringifyContext
          ⟨extension.command, options, argv, buildEnvironment extension options⟩),
         StdinEvent.close]) ∧
    (passContextIsSet extension.config = false →
      (executeExtension extension options argv defaultRunner).stdin = []) := by
  constructor <;> intro h <;> simp [executeExtension, h]

/-- Witness for the amended C9 on the pass-context fixture. -/
theorem passContextStdinBehavior_witness :
    (executeExtension genUuidExt [("env", JSValue.vStr "prod")]
        ["gen", "uuid", "--env", "prod"] "node").stdin =
      [StdinEvent.write (jsonStringifyContext
        ⟨genUuidExt.command, [("env", JSValue.vStr "prod")],
         ["gen", "uuid", "--env", "prod"],
         buildEnvironment genUuidExt [("env", JSValue.vStr "prod")]⟩),
       StdinEvent.close] :=
  (passContextStdinBehavior genUuidExt [("env", JSValue.vStr "prod")]
    ["gen", "uuid", "--env", "prod"] "node").1 rfl

/-- Counterexample to C9 as stated: the serialized context's argument list is
the full `process.argv.slice(2)` — the command-path tokens `gen uuid` are
still in it — and that serialization differs from the one the claim
describes, whose argument list would hold only the residual `--flag`. -/
theorem passContextRawArgs :
    (executeExtension genUuidExt [] ["gen", "uuid", "--flag"] "node").stdin =
      [StdinEvent.write (jsonStringifyContext
        ⟨"gen uuid", [], ["gen", "uuid", "--flag"], buildEnvironment genUuidExt []⟩),
       StdinEvent.close] ∧
    jsonStringifyContext
        ⟨"gen uuid", [], ["gen", "uuid", "--flag"], buildEnvironment genUuidExt []⟩ ≠
      jsonStringifyContext
        ⟨"gen uuid", [], ["--flag"], buildEnvironment genUuidExt []⟩ := by decide

/-- Claim C10: while the cache flag is set, `loadExtensions` returns the
cached list and leaves the state untouched, independently of the filesystem
and the configured roots; `invalidateCache` empties all three caches and
clears the flag, so the next `loadExtensions` rediscovers from the roots and
refills the caches; and the conflict/source getters return (copies of) the
cached lists without modifying anything. -/
theorem loaderCacheBehavior (fs fs' : List FSEntry) (dirs dirs' : List String)
    (fuel fuel' : Nat) (st : LoaderState) (h : st.cacheValid = true) :
    loadExtensions fs fuel dirs st = (st.extensionsCache, st) ∧
    loadExtensions fs fuel dirs st = loadExtensions fs' fuel' dirs' st ∧
    invalidateCache st = ⟨[], [], [], false⟩ ∧
    (loadExtensions fs fuel dirs (invalidateCache st)).2 =
      ⟨(mergeExtensionsWithConflicts (loadExtensionSources fs fuel dirs)).1,
       loadExtensionSources fs fuel dirs,
       (mergeExtensionsWithConflicts (loadExtensionSources fs fuel dirs)).2, true⟩ ∧
    getConflicts st = st.conflictsCache ∧
    getExtensionSources st = st.extensionSourcesCache := by
  refine ⟨?_, ?_, rfl, ?_, rfl, rfl⟩
  · simp [loadExtensions, h]
  · simp [loadExtensions, h]
  · simp [loadExtensions, invalidateCache]

/-- Witness for C10 at a concrete valid-cache state. -/
theorem loaderCacheBehavior_witness :
    loadExtensions npmFs 4 ["/exts"] ⟨[extHighX], [srcHighX], [], true⟩ =
      ([extHighX], ⟨[extHighX], [srcHighX], [], true⟩) ∧
    loadExtensions npmFs 4 ["/exts"] ⟨[extHighX], [srcHighX], [], true⟩ =
      loadExtensions awsFs 3 ["/other"] ⟨[extHighX], [srcHighX], [], true⟩ ∧
    invalidateCache ⟨[extHighX], [srcHighX], [], true⟩ = ⟨[], [], [], false⟩ ∧
    (loadExtensions npmFs 4 ["/exts"]
        (invalidateCache ⟨[extHighX], [srcHighX], [], true⟩)).2 =
      ⟨(mergeExtensionsWithConflicts (loadExtensionSources npmFs 4 ["/exts"])).1,
       loadExtensionSources npmFs 4 ["/exts"],
       (mergeExtensionsWithConflicts (loadExtensionSources npmFs 4 ["/exts"])).2, true⟩ ∧
    getConflicts ⟨[extHighX], [srcHighX], [], true⟩ = [] ∧
    getExtensionSources ⟨[extHighX], [srcHighX], [], true⟩ = [srcHighX] :=
  loaderCacheBehavior npmFs awsFs ["/exts"] ["/other"] 4 3
    ⟨[extHighX], [srcHighX], [], true⟩ rfl

/-! Segment lemmas: replacing the last space-separated segment of a command
path built by `joinCmd` from space-free pieces. -/

theorem spaceFreeL_reverse (l : List Char) :
    spaceFreeL l.reverse = spaceFreeL l := by
  simp [spaceFreeL, List.all_eq_true]

theorem spaceFreeL_subset (l l' : List Char) (hsub : l' ⊆ l)
    (h : spaceFreeL l = true) : spaceFreeL l' = true := by
  simp only [spaceFreeL, List.all_eq_true] at *
  exact fun c hc => h c (hsub hc)

theorem takeWhile_subset_of (q : Char → Bool) :
    ∀ l : List Char, l.takeWhile q ⊆ l := by
  intro l
  induction l with
  | nil => simp [List.takeWhile]
  | cons c cs ih =>
    cases h : q c with
    | true =>
      simp only [List.takeWhile, h]
      exact List.cons_subset_cons c ih
    | false =>
      simp only [List.takeWhile, h]
      exact List.nil_subset _

theorem dropLastSegRev_none (l : List Char) (h : spaceFreeL l = true) :
    dropLastSegRev l = none := by
  induction l with
  | nil => rfl
  | cons c cs ih =>
    simp only [spaceFreeL, List.all_cons, Bool.and_eq_true] at h
    have hc : ¬ c = ' ' := by simpa using h.1
    simp only [dropLastSegRev, if_neg hc]
    exact ih h.2

theorem dropLastSegRev_append (x r : List Char) (h : spaceFreeL x = true) :
    dropLastSegRev (x ++ ' ' :: r) = some r := by
  induction x with
  | nil => simp [dropLastSegRev]
  | cons c cs ih =>
    simp only [spaceFreeL, List.all_cons, Bool.and_eq_true] at h
    have hc : ¬ c = ' ' := by simpa using h.1
    simp only [List.cons_append, dropLastSegRev, if_neg hc]
    exact ih h.2

theorem replaceLastSeg_single (x al : String) (hx : spaceFree x = true) :
    replaceLastSeg x al = al := by
  rw [replaceLastSeg, dropLastSegRev_none _ (by rw [spaceFreeL_reverse]; exact hx)]

theorem toList_append3 (a b : String) :
    (a ++ " " ++ b).toList = a.toList ++ ' ' :: b.toList := by
  show (a ++ " " ++ b).data = a.data ++ ' ' :: b.data
  rw [String.data_append, String.data_append,
    show (" " : String).data = [' '] from rfl, List.append_assoc]
  rfl

theorem replaceLastSeg_joinCmd (base x al : String) (hx : spaceFree x = true) :
    replaceLastSeg (joinCmd base x) al = joinCmd base al := by
  by_cases hb : base = ""
  · rw [joinCmd, if_pos hb, joinCmd, if_pos hb]
    exact replaceLastSeg_single x al hx
  · rw [joinCmd, if_neg hb, joinCmd, if_neg hb, replaceLastSeg]
    have h1 : (base ++ " " ++ x).toList.reverse =
        x.toList.reverse ++ ' ' :: base.toList.reverse := by
      rw [toList_append3, List.reverse_append, List.reverse_cons, List.append_assoc,
        List.singleton_append]
    rw [h1, dropLastSegRev_append _ _ (by rw [spaceFreeL_reverse]; exact hx)]
    show String.mk base.toList.reverse.reverse ++ " " ++ al = base ++ " " ++ al
    rw [List.reverse_reverse]
    rfl

/-! Propagation of filesystem well-formedness through lookups. -/

theorem entriesWf_mem (cs : List FSEntry) (e : FSEntry)
    (h : entriesWf cs = true) (hmem : e ∈ cs) : entryWf e = true := by
  induction cs with
  | nil => cases hmem
  | cons hd tl ih =>
    simp only [entriesWf, Bool.and_eq_true] at h
    rcases List.mem_cons.mp hmem with h' | h'
    · rw [h']; exact h.1
    · exact ih h.2 h'

theorem entryWf_findEntry (cs : List FSEntry) (n : String) (ent : FSEntry)
    (h : entriesWf cs = true) (hf : findEntry cs n = some ent) : entryWf ent = true :=
  entriesWf_mem cs ent h (List.mem_of_find?_eq_some hf)

theorem entryWf_lookupSegs (segs : List String) :
    ∀ (cs : List FSEntry) (ent : FSEntry), entriesWf cs = true →
      lookupSegs cs segs = some ent → entryWf ent = true := by
  induction segs with
  | nil =>
    intro cs ent h hl
    simp only [lookupSegs] at hl
    cases hl
    simp [entryWf, spaceFreeL, h]
  | cons n rest ih =>
    intro cs ent h hl
    cases rest with
    | nil => exact entryWf_findEntry cs n ent h hl
    | cons m rest' =>
      simp only [lookupSegs] at hl
      cases hfind : findEntry cs n with
      | none => rw [hfind] at hl; cases hl
      | some ent' =>
        rw [hfind] at hl
        cases ent' with
        | file nm pr => cases hl
        | dir nm cs' =>
          have hwf' := entryWf_findEntry cs n _ h hfind
          simp only [entryWf, Bool.and_eq_true] at hwf'
          exact ih cs' ent hwf'.2 hl

theorem entryWf_stat (fs : List FSEntry) (p : String) (ent : FSEntry)
    (hwf : fsWf fs = true) (h : stat fs p = some ent) : entryWf ent = true :=
  entryWf_lookupSegs (splitPath p) fs ent hwf h

theorem configAliasesOk_tryCandidates (fs : List FSEntry) (hwf : fsWf fs = true) :
    ∀ (ps : List String) (cfg : ExtensionConfig),
      tryConfigCandidates fs ps = some cfg → configAliasesOk cfg = true := by
  intro ps
  induction ps with
  | nil => intro cfg h; cases h
  | cons p rest ih =>
    intro cfg h
    simp only [tryConfigCandidates] at h
    cases hstat : stat fs p with
    | none => rw [hstat] at h; exact ih cfg h
    | some ent =>
      rw [hstat] at h
      cases ent with
      | dir n cs => exact ih cfg h
      | file n pr =>
        cases pr with
        | error e => exact ih cfg h
        | ok r =>
          cases h
          have := entryWf_stat fs p _ hwf hstat
          simp only [entryWf, Bool.and_eq_true, parseOk] at this
          exact this.2

theorem spaceFree_names (cs : List FSEntry) (h : entriesWf cs = true) :
    ∀ n ∈ cs.map FSEntry.name, spaceFree n = true := by
  intro n hn
  obtain ⟨e, he, hen⟩ := List.mem_map.mp hn
  have := entriesWf_mem cs e h he
  cases e with
  | file nm pr =>
    simp only [entryWf, Bool.and_eq_true] at this
    rw [← hen]
    exact this.1
  | dir nm cs' =>
    simp only [entryWf, Bool.and_eq_true] at this
    rw [← hen]
    exact this.1

theorem spaceFree_getCommandName (s : String) (h : spaceFree s = true) :
    spaceFree (getCommandName s) = true := by
  rw [getCommandName]
  apply spaceFreeL_subset s.toList
  · intro c hc
    have h1 : c ∈ basenameL s.toList := List.take_subset _ _ hc
    rw [basenameL] at h1
    have h2 : c ∈ s.toList.reverse := takeWhile_subset_of _ _ (List.mem_reverse.mp h1)
    exact List.mem_reverse.mp h2
  · exact h

/-! Closure of the alias-sibling property under the shapes `scanItems`
produces. -/

theorem aliasClosed_nil (fs : List FSEntry) : AliasClosed fs [] :=
  fun e he => absurd he (List.not_mem_nil e)

theorem aliasClosed_append (fs : List FSEntry) (A B : List Extension)
    (hA : AliasClosed fs A) (hB : AliasClosed fs B) : AliasClosed fs (A ++ B) := by
  intro e he hf cfg hcfg al hal
  rcases List.mem_append.mp he with h | h
  · obtain ⟨e', he', rest⟩ := hA e h hf cfg hcfg al hal
    exact ⟨e', List.mem_append.mpr (Or.inl he'), rest⟩
  · obtain ⟨e', he', rest⟩ := hB e h hf cfg hcfg al hal
    exact ⟨e', List.mem_append.mpr (Or.inr he'), rest⟩

theorem aliasClosed_virtual (fs : List FSEntry) (sub itemPath : String)
    (cfg : ExtensionConfig) (n : String) (cs : List FSEntry)
    (hstat : stat fs itemPath = some (FSEntry.dir n cs)) :
    AliasClosed fs [⟨sub, itemPath, some cfg, "js"⟩] := by
  intro e he hf
  rcases List.mem_singleton.mp he with rfl
  simp only [statIsFile, hstat] at hf
  exact Bool.noConfusion hf

theorem createExtension_file (fs : List FSEntry) (c p : String) (n : String)
    (pr : Except Unit (Option ExtensionConfig))
    (hstat : stat fs p = some (FSEntry.file n pr)) :
    createExtension fs c p =
      some ⟨c, p, tryConfigCandidates fs (fileConfigCandidates p), getScriptType p⟩ := by
  simp [createExtension, loadSidecarConfig, hstat]

theorem filterMap_all_some {α β : Type} (f : α → Option β) (g : α → β)
    (l : List α) (h : ∀ a ∈ l, f a = some (g a)) : l.filterMap f = l.map g := by
  induction l with
  | nil => rfl
  | cons a tl ih =>
    rw [List.filterMap_cons, h a (List.mem_cons_self _ _), List.map_cons,
      ih (fun a' h' => h a' (List.mem_cons_of_mem _ h'))]

theorem fileChunk_aliasClosed (fs : List FSEntry) (itemPath stem base : String)
    (cfgRes : Option ExtensionConfig) (st : String)
    (hfile : statIsFile fs itemPath = true)
    (hstem : spaceFree stem = true)
    (haliases : ∀ al ∈ aliasesOf cfgRes, spaceFree al = true) :
    AliasClosed fs (⟨joinCmd base stem, itemPath, cfgRes, st⟩ ::
      (aliasesOf cfgRes).map (fun al => ⟨joinCmd base al, itemPath, cfgRes, st⟩)) := by
  intro e he hf cfg hcfg al hal
  rcases List.mem_cons.mp he with hmain | halias
  · have hcfgRes : cfgRes = some cfg := by rw [hmain] at hcfg; exact hcfg
    have hal' : al ∈ aliasesOf cfgRes := by rw [hcfgRes]; exact hal
    refine ⟨⟨joinCmd base al, itemPath, cfgRes, st⟩,
      List.mem_cons_of_mem _ (List.mem_map_of_mem _ hal'), ?_, ?_, ?_, ?_⟩
    · rw [hmain]
      exact (replaceLastSeg_joinCmd base stem al hstem).symm
    · rw [hmain]
    · rw [hmain]
    · rw [hmain]
  · obtain ⟨x, hx, hex⟩ := List.mem_map.mp halias
    have hcfgRes : cfgRes = some cfg := by rw [← hex] at hcfg; exact hcfg
    have hal' : al ∈ aliasesOf cfgRes := by rw [hcfgRes]; exact hal
    refine ⟨⟨joinCmd base al, itemPath, cfgRes, st⟩,
      List.mem_cons_of_mem _ (List.mem_map_of_mem _ hal'), ?_, ?_, ?_, ?_⟩
    · rw [← hex]
      exact (replaceLastSeg_joinCmd base x al (haliases x hx)).symm
    · rw [← hex]
    · rw [← hex]
    · rw [← hex]

theorem scanItems_aliasClosed (fs : List FSEntry) (hwf : fsWf fs = true)
    (recurse : String → String → List Extension)
    (hrec : ∀ dir base, AliasClosed fs (recurse dir base)) :
    ∀ (names : List String) (dir base : String),
      (∀ n ∈ names, spaceFree n = true) →
      AliasClosed fs (scanItems fs recurse names dir base) := by
  intro names
  induction names with
  | nil =>
    intro dir base _
    exact aliasClosed_nil fs
  | cons item rest ih =>
    intro dir base hnames
    have hrest : ∀ n ∈ rest, spaceFree n = true :=
      fun n hn => hnames n (List.mem_cons_of_mem _ hn)
    have hitem : spaceFree item = true := hnames item (List.mem_cons_self _ _)
    cases hstat : stat fs (dir ++ "/" ++ item) with
    | none =>
      have heq : scanItems fs recurse (item :: rest) dir base = [] := by
        simp [scanItems, hstat]
      rw [heq]
      exact aliasClosed_nil fs
    | some ent =>
      cases ent with
      | dir n cs =>
        have hside : loadSidecarConfig fs (dir ++ "/" ++ item) =
            Except.ok (tryConfigCandidates fs (dirConfigCandidates (dir ++ "/" ++ item))) := by
          simp [loadSidecarConfig, hstat]
        cases hcfg : tryConfigCandidates fs (dirConfigCandidates (dir ++ "/" ++ item)) with
        | some cfg =>
          have heq : scanItems fs recurse (item :: rest) dir base =
              [⟨joinCmd base item, dir ++ "/" ++ item, some cfg, "js"⟩] ++
                (recurse (dir ++ "/" ++ item) (joinCmd base item) ++
                  scanItems fs recurse rest dir base) := by
            simp [scanItems, hstat, hside, hcfg]
          rw [heq]
          exact aliasClosed_append fs _ _
            (aliasClosed_virtual fs _ _ cfg n cs hstat)
            (aliasClosed_append fs _ _ (hrec _ _) (ih dir base hrest))
        | none =>
          have heq : scanItems fs recurse (item :: rest) dir base =
              recurse (dir ++ "/" ++ item) (joinCmd base item) ++
                scanItems fs recurse rest dir base := by
            simp [scanItems, hstat, hside, hcfg]
          rw [heq]
          exact aliasClosed_append fs _ _ (hrec _ _) (ih dir base hrest)
      | file n pr =>
        by_cases hexec : isExecutableFile item = true
        · have hcreate1 := createExtension_file fs
            (joinCmd base (getCommandName item)) (dir ++ "/" ++ item) n pr hstat
          have hmap : (aliasesOf (tryConfigCandidates fs
                (fileConfigCandidates (dir ++ "/" ++ item)))).filterMap
              (fun al => createExtension fs (joinCmd base al) (dir ++ "/" ++ item)) =
              (aliasesOf (tryConfigCandidates fs
                (fileConfigCandidates (dir ++ "/" ++ item)))).map
              (fun al => ⟨joinCmd base al, dir ++ "/" ++ item,
                tryConfigCandidates fs (fileConfigCandidates (dir ++ "/" ++ item)),
                getScriptType (dir ++ "/" ++ item)⟩) :=
            filterMap_all_some _ _ _
              (fun al _ => createExtension_file fs (joinCmd base al) _ n pr hstat)
          have heq : scanItems fs recurse (item :: rest) dir base =
              (⟨joinCmd base (getCommandName item), dir ++ "/" ++ item,
                 tryConfigCandidates fs (fileConfigCandidates (dir ++ "/" ++ item)),
                 getScriptType (dir ++ "/" ++ item)⟩ ::
               (aliasesOf (tryConfigCandidates fs
                 (fileConfigCandidates (dir ++ "/" ++ item)))).map
               (fun al => ⟨joinCmd base al, dir ++ "/" ++ item,
                 tryConfigCandidates fs (fileConfigCandidates (dir ++ "/" ++ item)),
                 getScriptType (dir ++ "/" ++ item)⟩)) ++
              scanItems fs recurse rest dir base := by
            simp only [scanItems, hstat, hexec, if_true, hcreate1, hmap]
            simp
          rw [heq]
          refine aliasClosed_append fs _ _ ?_ (ih dir base hrest)
          refine fileChunk_aliasClosed fs _ _ base _ _ ?_ ?_ ?_
          · simp [statIsFile, hstat]
          · exact spaceFree_getCommandName item hitem
          · intro al hal
            cases hres : tryConfigCandidates fs
                (fileConfigCandidates (dir ++ "/" ++ item)) with
            | none => rw [hres] at hal; cases hal
            | some cfgR =>
              rw [hres] at hal
              have hok := configAliasesOk_tryCandidates fs hwf _ cfgR hres
              simp only [configAliasesOk, List.all_eq_true] at hok
              exact hok al hal
        · have heq : scanItems fs recurse (item :: rest) dir base =
              scanItems fs recurse rest dir base := by
            simp [scanItems, hstat, hexec]
          rw [heq]
          exact ih dir base hrest

theorem discoverExtensions_aliasClosed (fs : List FSEntry) (hwf : fsWf fs = true) :
    ∀ (fuel : Nat) (dir base : String),
      AliasClosed fs (discoverExtensions fs fuel dir base) := by
  intro fuel
  induction fuel with
  | zero =>
    intro dir base
    exact aliasClosed_nil fs
  | succ fuel ih =>
    intro dir base
    cases hstat : stat fs dir with
    | none =>
      have heq : discoverExtensions fs (fuel + 1) dir base = [] := by
        simp [discoverExtensions, hstat]
      rw [heq]
      exact aliasClosed_nil fs
    | some ent =>
      cases ent with
      | file n pr =>
        have heq : discoverExtensions fs (fuel + 1) dir base = [] := by
          simp [discoverExtensions, hstat]
        rw [heq]
        exact aliasClosed_nil fs
      | dir n cs =>
        have heq : discoverExtensions fs (fuel + 1) dir base =
            scanItems fs (discoverExtensions fs fuel) (cs.map FSEntry.name) dir base := by
          simp [discoverExtensions, hstat]
        rw [heq]
        have hwf' := entryWf_stat fs dir _ hwf hstat
        simp only [entryWf, Bool.and_eq_true] at hwf'
        exact scanItems_aliasClosed fs hwf (discoverExtensions fs fuel)
          (fun d b => ih d b) (cs.map FSEntry.name) dir base
          (spaceFree_names cs hwf'.2)

/-- Claim C3 (amended): for every file-backed table entry (an entry whose
script path resolves to a regular file — virtual directory entries are
excluded, since the loop only expands aliases for executable files) whose
metadata declares aliases, discovery also emits, per alias, one entry whose
command path replaces the final segment of the original's command path by
the alias (a sibling in the same parent namespace, well-defined given that
entry names and alias strings contain no space), with the same script path,
the same metadata document, and the same script type. -/
theorem aliasExpansionFileEntries (fs : List FSEntry) (fuel : Nat)
    (dir base : String) (e : Extension) (hwf : fsWf fs = true)
    (he : e ∈ discoverExtensions fs fuel dir base)
    (hfile : statIsFile fs e.scriptPath = true)
    (cfg : ExtensionConfig) (hcfg : e.config = some cfg)
    (al : String) (hal : al ∈ aliasesOf (some cfg)) :
    ∃ e', e' ∈ discoverExtensions fs fuel dir base ∧
      e'.command = replaceLastSeg e.command al ∧
      e'.scriptPath = e.scriptPath ∧ e'.config = e.config ∧
      e'.scriptType = e.scriptType :=
  discoverExtensions_aliasClosed fs hwf fuel dir base e he hfile cfg hcfg al hal

/-- Witness for the amended C3: `npm/show-scripts.sh` with alias `ss`. -/
theorem aliasExpansionFileEntries_witness :
    ∃ e', e' ∈ discoverExtensions npmFs 4 "/exts" "" ∧
      e'.command = replaceLastSeg ssMainExt.command "ss" ∧
      e'.scriptPath = ssMainExt.scriptPath ∧ e'.config = ssMainExt.config ∧
      e'.scriptType = ssMainExt.scriptType :=
  aliasExpansionFileEntries npmFs 4 "/exts" "" ssMainExt (by decide) (by decide)
    (by decide) showScriptsCfg rfl "ss" (by decide)

/-- Counterexample to C3 as stated: a directory sidecar declaring aliases
creates a virtual entry whose metadata has a non-empty alias list and whose
command path has length 1, yet discovery synthesizes no `cloud` sibling —
alias expansion only runs for executable files, never for virtual directory
entries. -/
theorem virtualAliasNotExpanded :
    (⟨"aws", "/exts/aws", some awsAliasCfg, "js"⟩ : Extension) ∈
      discoverExtensions dirAliasFs 4 "/exts" "" ∧
    aliasesOf (some awsAliasCfg) = ["cloud"] ∧
    replaceLastSeg "aws" "cloud" = "cloud" ∧
    (∀ e ∈ discoverExtensions dirAliasFs 4 "/exts" "", e.command ≠ "cloud") := by decide

end RC
